import Mathlib

/-!
Shallow embedding of the Temporal Track Consolidation & Redaction Engine of
SecureStudio (`src/core/video_thread.py`, class `VideoWorker`).

Boxes and timestamps are modelled as rationals; the track store
(`self.active_blurs`, a Python dict from integer track key to track data) is
modelled as an association list that preserves insertion order, with in-place
overwrite on an existing key, exactly like a Python dict.
-/

namespace SecureStudio

/-- An axis-aligned box `[x1, y1, x2, y2]` in frame pixel coordinates.
The same 4-component shape is used for per-coordinate velocities. -/
structure Box4 where
  x1 : ℚ
  y1 : ℚ
  x2 : ℚ
  y2 : ℚ
deriving DecidableEq, Repr

/-- One detection delivered for the current cycle, after rescaling to the
output frame: its box, its label, and the optional detector-assigned track id
(`track_id != -1` in the source is modelled as `id = some tid`). -/
structure Detection where
  box : Box4
  label : String
  id : Option ℤ
deriving DecidableEq, Repr

/-- One entry of `self.active_blurs`: box, velocity, label, last_seen. -/
structure TrackData where
  box : Box4
  velocity : Box4
  label : String
  lastSeen : ℚ
deriving DecidableEq, Repr

/-- The track store `self.active_blurs`: keys are integers (detector ids or
synthetic negative ids), values are `TrackData`. -/
abbrev Store := List (ℤ × TrackData)

/-- Dict lookup: the value at a key, `none` when absent. -/
def lookupKey : Store → ℤ → Option TrackData
  | [], _ => none
  | (k, v) :: rest, key => if k = key then some v else lookupKey rest key

/-- Dict assignment `store[key] = v`: overwrite in place when the key is
present (Python dicts keep the original position), append otherwise. -/
def insertKey : Store → ℤ → TrackData → Store
  | [], key, v => [(key, v)]
  | (k, w) :: rest, key, v =>
      if k = key then (key, v) :: rest else (k, w) :: insertKey rest key v

/-- `self.persistence_duration = 0.5` seconds. -/
def persistenceDuration : ℚ := 1 / 2

/-- The zero velocity `[0, 0, 0, 0]` assigned to a brand-new track. -/
def zeroVel : Box4 := ⟨0, 0, 0, 0⟩

/-- The `TrackData` stored for a new track: detection box, zero velocity,
detection label, `last_seen = current_time`. -/
def newTrack (d : Detection) (now : ℚ) : TrackData :=
  ⟨d.box, zeroVel, d.label, now⟩

/-- The matched-track update of `VideoWorker.run` (lines 257-302): raw
velocity, adaptive smoothing (less smoothing when mean speed exceeds 20),
exponential box smoothing, per-axis size stabilization against "breathing",
50/50 velocity smoothing, label refresh and `last_seen = current_time`. -/
def updateMatched (smooth : ℚ) (old : TrackData) (newBox : Box4) (label : String)
    (now : ℚ) : TrackData :=
  let nv : Box4 := ⟨newBox.x1 - old.box.x1, newBox.y1 - old.box.y1,
                    newBox.x2 - old.box.x2, newBox.y2 - old.box.y2⟩
  let speed : ℚ := (|nv.x1| + |nv.y1| + |nv.x2| + |nv.y2|) / 4
  let adaptiveSmooth : ℚ := if 20 < speed then max (1 / 10) (smooth - 3 / 10) else smooth
  let s1 : ℚ := old.box.x1 * adaptiveSmooth + newBox.x1 * (1 - adaptiveSmooth)
  let s2 : ℚ := old.box.y1 * adaptiveSmooth + newBox.y1 * (1 - adaptiveSmooth)
  let s3 : ℚ := old.box.x2 * adaptiveSmooth + newBox.x2 * (1 - adaptiveSmooth)
  let s4 : ℚ := old.box.y2 * adaptiveSmooth + newBox.y2 * (1 - adaptiveSmooth)
  let oldW : ℚ := old.box.x2 - old.box.x1
  let oldH : ℚ := old.box.y2 - old.box.y1
  let newW : ℚ := s3 - s1
  let newH : ℚ := s4 - s2
  let sx : ℚ × ℚ :=
    if |newW - oldW| / max oldW 1 < 1 / 20 then
      (((s1 + s3) / 2) - oldW / 2, ((s1 + s3) / 2) + oldW / 2)
    else (s1, s3)
  let sy : ℚ × ℚ :=
    if |newH - oldH| / max oldH 1 < 1 / 20 then
      (((s2 + s4) / 2) - oldH / 2, ((s2 + s4) / 2) + oldH / 2)
    else (s2, s4)
  let sVel : Box4 := ⟨old.velocity.x1 * (1 / 2) + nv.x1 * (1 / 2),
                      old.velocity.y1 * (1 / 2) + nv.y1 * (1 / 2),
                      old.velocity.x2 * (1 / 2) + nv.x2 * (1 / 2),
                      old.velocity.y2 * (1 / 2) + nv.y2 * (1 / 2)⟩
  ⟨⟨sx.1, sy.1, sx.2, sy.2⟩, sVel, label, now⟩

/-- The store key a detection ends up under: its own id when it has one
(`track_id != -1`), the synthetic `temp_id = -1000 - i` otherwise. -/
def detKey (i : ℕ) (d : Detection) : ℤ :=
  match d.id with
  | some tid => tid
  | none => -1000 - (i : ℤ)

/-- Handling of one detection in `VideoWorker.run` (lines 254-320): a
detection with an id updates the existing track under that key (smoothing
path) or creates a new one; a detection without an id is stored as a new
track under `temp_id = -1000 - i`; either way the key joins
`current_frame_ids`. -/
def processOne (now smooth : ℚ) (i : ℕ) (d : Detection) (store : Store)
    (ids : List ℤ) : Store × List ℤ :=
  match d.id with
  | some tid =>
      (match lookupKey store tid with
       | some old => insertKey store tid (updateMatched smooth old d.box d.label now)
       | none => insertKey store tid (newTrack d now),
       tid :: ids)
  | none =>
      (insertKey store (-1000 - (i : ℤ)) (newTrack d now), (-1000 - (i : ℤ)) :: ids)

/-- The per-detection association loop of `VideoWorker.run`, threading the
store and `current_frame_ids` through the detections in input order; `i` is
the index of the detection in the batch (the source's `i` from
`enumerate(boxes)`). -/
def processDetections (now smooth : ℚ) :
    ℕ → List Detection → Store → List ℤ → Store × List ℤ
  | _, [], store, ids => (store, ids)
  | i, d :: ds, store, ids =>
      let r := processOne now smooth i d store ids
      processDetections now smooth (i + 1) ds r.1 r.2

/-- The velocity extrapolation applied to one track on a skip cycle:
`predicted_box = [b + v for b, v in zip(data['box'], velocity)]`; velocity,
label and `last_seen` stay as they were. -/
def predictTrack (v : TrackData) : TrackData :=
  { v with box := ⟨v.box.x1 + v.velocity.x1, v.box.y1 + v.velocity.y1,
                   v.box.x2 + v.velocity.x2, v.box.y2 + v.velocity.y2⟩ }

/-- One store entry as the skip cycle leaves it: extrapolated when the key is
non-negative (`if tid >= 0` in the source), untouched otherwise. -/
def predictEntry (kv : ℤ × TrackData) : ℤ × TrackData :=
  if 0 ≤ kv.1 then (kv.1, predictTrack kv.2) else kv

/-- The skip-cycle prediction of `VideoWorker.run` (lines 321-329): every
track with a non-negative key gets `box := box + velocity`; synthetic
(negative-key) tracks are left untouched. -/
def skipPredict (store : Store) : Store :=
  store.map predictEntry

/-- The prune step of `VideoWorker.run` (lines 331-341): drop every entry
whose `last_seen` is older than `persistence_duration`, and every entry with
key `< -900` that is not among `current_frame_ids`. -/
def pruneStore (now : ℚ) (currentIds : List ℤ) : Store → Store
  | [] => []
  | kv :: rest =>
      if persistenceDuration < now - kv.2.lastSeen ∨
         (kv.1 < -900 ∧ kv.1 ∉ currentIds) then
        pruneStore now currentIds rest
      else kv :: pruneStore now currentIds rest

/-- One full tracking cycle of the video loop: on a detection-bearing cycle
(`detsOpt = some dets`) run the association loop, on a skip cycle
(`detsOpt = none`) extrapolate positions with `current_frame_ids` set to all
stored keys; then prune. -/
def runCycle (smooth now : ℚ) (detsOpt : Option (List Detection)) (store : Store) :
    Store :=
  match detsOpt with
  | some dets =>
      let r := processDetections now smooth 0 dets store []
      pruneStore now r.2 r.1
  | none =>
      pruneStore now (store.map Prod.fst) (skipPredict store)

/-! ## Redaction renderer (`VideoWorker.apply_blur_effect` and lines 344-360) -/

/-- A BGR pixel. -/
abbrev Pixel := ℤ × ℤ × ℤ

/-- A frame buffer, as pixel values indexed by column and row. -/
abbrev Image := ℤ → ℤ → Pixel

/-- The blur styles of `self.blur_style`; any value other than `pixelate` or
`solid` falls through to the Gaussian branch in the source, so the third
constructor covers `"gaussian"` and the default. -/
inductive BlurStyle where
  | pixelate
  | solid
  | gaussian
deriving DecidableEq, Repr

/-- The external OpenCV operations used inside `apply_blur_effect`, consumed
as black boxes: `resize` takes the source image, its size and the destination
size (the interpolation mode is tracked by using distinct fields for
`INTER_LINEAR` and `INTER_NEAREST`); `gaussianBlur` takes the region and the
kernel size. Only where the results are written matters to the claims, never
their pixel values. -/
structure CVLib where
  resizeLinear : Image → ℤ × ℤ → ℤ × ℤ → Image
  resizeNearest : Image → ℤ × ℤ → ℤ × ℤ → Image
  gaussianBlur : Image → ℕ → Image

/-- The pixelation grid of `apply_blur_effect`:
`w_small = max(1, w_roi // 10)` and `h_small = max(1, h_roi // 10)`. -/
def pixelateSmallDims (wRoi hRoi : ℕ) : ℕ × ℕ :=
  (max 1 (wRoi / 10), max 1 (hRoi / 10))

/-- The Gaussian kernel size of `apply_blur_effect`:
`min(25, min(roi.shape[:2])) | 1` (bitwise or with 1 makes it odd). -/
def gaussianKsize (wRoi hRoi : ℕ) : ℕ :=
  (min 25 (min hRoi wRoi)) ||| 1

/-- `VideoWorker.apply_blur_effect`: clamp the requested region to the frame,
return the frame unchanged when the clamped region is degenerate, otherwise
overwrite the region with the selected effect. `cv2.rectangle` with
thickness -1 fills the rectangle inclusive of both corners, so the solid
branch writes the closed region; the resize and blur branches write the
half-open slice `img[y1:y2, x1:x2]`. -/
def applyBlurEffect (cv : CVLib) (style : BlurStyle) (w h : ℤ) (img : Image)
    (x1 y1 x2 y2 : ℤ) : Image :=
  let y1c := max 0 y1
  let y2c := min h y2
  let x1c := max 0 x1
  let x2c := min w x2
  if x2c ≤ x1c ∨ y2c ≤ y1c then img
  else
    let wRoi := x2c - x1c
    let hRoi := y2c - y1c
    let roi : Image := fun x y => img (x1c + x) (y1c + y)
    match style with
    | .pixelate =>
        let dims := pixelateSmallDims wRoi.toNat hRoi.toNat
        let small := cv.resizeLinear roi (wRoi, hRoi) ((dims.1 : ℤ), (dims.2 : ℤ))
        let pixelated := cv.resizeNearest small ((dims.1 : ℤ), (dims.2 : ℤ)) (wRoi, hRoi)
        fun x y =>
          if x1c ≤ x ∧ x < x2c ∧ y1c ≤ y ∧ y < y2c then pixelated (x - x1c) (y - y1c)
          else img x y
    | .solid =>
        fun x y =>
          if x1c ≤ x ∧ x ≤ x2c ∧ y1c ≤ y ∧ y ≤ y2c then (0, 0, 0)
          else img x y
    | .gaussian =>
        let ksize := gaussianKsize wRoi.toNat hRoi.toNat
        if 1 < ksize then
          let blurred := cv.gaussianBlur roi ksize
          fun x y =>
            if x1c ≤ x ∧ x < x2c ∧ y1c ≤ y ∧ y < y2c then blurred (x - x1c) (y - y1c)
            else img x y
        else img

/-- Python `int(...)` on a rational: truncation toward zero. -/
def pyInt (q : ℚ) : ℤ := if 0 ≤ q then ⌊q⌋ else ⌈q⌉

/-- The padded, frame-clamped redaction region computed in `VideoWorker.run`
(lines 344-357): the float box is truncated to ints, padded by 15% of its
width and height on each side, and clamped to `[0, width] × [0, height]`. -/
def paddedRegion (w h : ℤ) (b : Box4) : ℤ × ℤ × ℤ × ℤ :=
  let x1 := pyInt b.x1
  let y1 := pyInt b.y1
  let x2 := pyInt b.x2
  let y2 := pyInt b.y2
  let padX := pyInt (((x2 - x1 : ℤ) : ℚ) * (15 / 100))
  let padY := pyInt (((y2 - y1 : ℤ) : ℚ) * (15 / 100))
  (max 0 (x1 - padX), max 0 (y1 - padY), min w (x2 + padX), min h (y2 + padY))

/-- The per-frame redaction pass (lines 344-360): each live track's padded
region is blurred into the output frame, in store order. -/
def renderBlurs (cv : CVLib) (style : BlurStyle) (w h : ℤ) (tracks : List TrackData)
    (img : Image) : Image :=
  tracks.foldl (fun im t =>
    let r := paddedRegion w h t.box
    applyBlurEffect cv style w h im r.1 r.2.1 r.2.2.1 r.2.2.2) img

/-- Membership in the closed rectangle `[x1, x2] × [y1, y2]`. -/
def insideRegion (x1 y1 x2 y2 x y : ℤ) : Prop :=
  x1 ≤ x ∧ x ≤ x2 ∧ y1 ≤ y ∧ y ≤ y2

instance (x1 y1 x2 y2 x y : ℤ) : Decidable (insideRegion x1 y1 x2 y2 x y) := by
  unfold insideRegion; infer_instance

/-! ## Spec-side definitions

The following definitions follow the specification's words, not the source;
they exist to be compared with the definitions above. -/

/-- Modelled from the spec (§4.1): standard intersection-over-union of two
boxes; 0 when the intersection width or height is ≤ 0. -/
def iou (a b : Box4) : ℚ :=
  let interW := min a.x2 b.x2 - max a.x1 b.x1
  let interH := min a.y2 b.y2 - max a.y1 b.y1
  if interW ≤ 0 ∨ interH ≤ 0 then 0
  else
    let inter := interW * interH
    let areaA := (a.x2 - a.x1) * (a.y2 - a.y1)
    let areaB := (b.x2 - b.x1) * (b.y2 - b.y1)
    inter / (areaA + areaB - inter)

/-- The unmatched candidate with the highest IoU against `b`: fold over the
store, skipping keys already matched this cycle, keeping the first maximum. -/
def bestIoUMatch (b : Box4) (matched : List ℤ) (store : Store) :
    Option (ℤ × ℚ) :=
  store.foldl (fun best kv =>
    if kv.1 ∈ matched then best
    else
      match best with
      | none => some (kv.1, iou b kv.2.box)
      | some (k0, s0) =>
          if s0 < iou b kv.2.box then some (kv.1, iou b kv.2.box) else some (k0, s0))
    none

/-- Modelled from the spec (§4.1, the claim's Association Engine): process
detections in input order; an identified detection is matched directly by
key; an unidentified detection is matched to the unmatched track of highest
IoU when that IoU exceeds `iouMatchThreshold = 0.3`, and otherwise starts a
new track under the fresh synthetic key `fresh` (subsequent fresh keys count
downward). Matched keys leave the candidate pool. -/
def specAssociate (now smooth : ℚ) :
    List Detection → Store → List ℤ → ℤ → Store
  | [], store, _, _ => store
  | d :: ds, store, matched, fresh =>
    match d.id with
    | some k =>
        let store1 :=
          match lookupKey store k with
          | some old => insertKey store k (updateMatched smooth old d.box d.label now)
          | none => insertKey store k (newTrack d now)
        specAssociate now smooth ds store1 (k :: matched) fresh
    | none =>
        match bestIoUMatch d.box matched store with
        | some (k, s) =>
            if 3 / 10 < s then
              match lookupKey store k with
              | some old =>
                  specAssociate now smooth ds
                    (insertKey store k (updateMatched smooth old d.box d.label now))
                    (k :: matched) fresh
              | none => specAssociate now smooth ds store matched fresh
            else
              specAssociate now smooth ds (insertKey store fresh (newTrack d now))
                (fresh :: matched) (fresh - 1)
        | none =>
            specAssociate now smooth ds (insertKey store fresh (newTrack d now))
              (fresh :: matched) (fresh - 1)

/-- Modelled from the spec (§4.2, steps 1-7 of the claim): the matched-track
update stated exactly as the specification words it. -/
def specMotionUpdate (smooth : ℚ) (old : TrackData) (newBox : Box4)
    (label : String) (now : ℚ) : TrackData :=
  let rawVelocity : Box4 := ⟨newBox.x1 - old.box.x1, newBox.y1 - old.box.y1,
                             newBox.x2 - old.box.x2, newBox.y2 - old.box.y2⟩
  let speed : ℚ :=
    (|rawVelocity.x1| + |rawVelocity.y1| + |rawVelocity.x2| + |rawVelocity.y2|) / 4
  let effectiveSmooth : ℚ :=
    if 20 < speed then max (1 / 10) (smooth - 3 / 10) else smooth
  let smoothed : Box4 :=
    ⟨old.box.x1 * effectiveSmooth + newBox.x1 * (1 - effectiveSmooth),
     old.box.y1 * effectiveSmooth + newBox.y1 * (1 - effectiveSmooth),
     old.box.x2 * effectiveSmooth + newBox.x2 * (1 - effectiveSmooth),
     old.box.y2 * effectiveSmooth + newBox.y2 * (1 - effectiveSmooth)⟩
  let oldW := old.box.x2 - old.box.x1
  let oldH := old.box.y2 - old.box.y1
  let stabX : Box4 :=
    if |(smoothed.x2 - smoothed.x1) - oldW| / max oldW 1 < 1 / 20 then
      let centerX := (smoothed.x1 + smoothed.x2) / 2
      { smoothed with x1 := centerX - oldW / 2, x2 := centerX + oldW / 2 }
    else smoothed
  let stabY : Box4 :=
    if |(smoothed.y2 - smoothed.y1) - oldH| / max oldH 1 < 1 / 20 then
      let centerY := (smoothed.y1 + smoothed.y2) / 2
      { stabX with y1 := centerY - oldH / 2, y2 := centerY + oldH / 2 }
    else stabX
  let smoothedVelocity : Box4 :=
    ⟨(1 / 2) * old.velocity.x1 + (1 / 2) * rawVelocity.x1,
     (1 / 2) * old.velocity.y1 + (1 / 2) * rawVelocity.y1,
     (1 / 2) * old.velocity.x2 + (1 / 2) * rawVelocity.x2,
     (1 / 2) * old.velocity.y2 + (1 / 2) * rawVelocity.y2⟩
  ⟨stabY, smoothedVelocity, label, now⟩

/-- A store whose keys are pairwise distinct, as a Python dict's always are. -/
def KeysNodup (s : Store) : Prop := (s.map Prod.fst).Nodup

instance (s : Store) : Decidable (KeysNodup s) := by
  unfold KeysNodup; infer_instance

/-- The horizontal center of a box. -/
def centerX (b : Box4) : ℚ := (b.x1 + b.x2) / 2

/-- The vertical center of a box. -/
def centerY (b : Box4) : ℚ := (b.y1 + b.y2) / 2

/-- The mean absolute per-coordinate change between an old and a new box:
the `speed` used by the adaptive-smoothing branch of the matched update. -/
def meanSpeed (old nb : Box4) : ℚ :=
  (|nb.x1 - old.x1| + |nb.y1 - old.y1| + |nb.x2 - old.x2| + |nb.y2 - old.y2|) / 4

/-! ## Lemmas about the store operations -/

theorem lookupKey_insertKey_self (s : Store) (k : ℤ) (v : TrackData) :
    lookupKey (insertKey s k v) k = some v := by
  induction s with
  | nil => simp [insertKey, lookupKey]
  | cons hd tl ih =>
      obtain ⟨k0, v0⟩ := hd
      by_cases h : k0 = k
      · subst h; simp [insertKey, lookupKey]
      · simp [insertKey, lookupKey, h, ih]

theorem lookupKey_insertKey_ne (s : Store) (k k' : ℤ) (v : TrackData)
    (h : k ≠ k') : lookupKey (insertKey s k v) k' = lookupKey s k' := by
  induction s with
  | nil => simp [insertKey, lookupKey, h]
  | cons hd tl ih =>
      obtain ⟨k0, v0⟩ := hd
      by_cases h0 : k0 = k
      · subst h0; simp [insertKey, lookupKey, h]
      · simp only [insertKey, if_neg h0, lookupKey]
        by_cases h1 : k0 = k'
        · simp [h1]
        · simp [h1, ih]

theorem mem_keys_of_lookupKey_eq_some {s : Store} {k : ℤ} {v : TrackData}
    (h : lookupKey s k = some v) : k ∈ s.map Prod.fst := by
  induction s with
  | nil => simp [lookupKey] at h
  | cons hd tl ih =>
      obtain ⟨k0, v0⟩ := hd
      by_cases h0 : k0 = k
      · subst h0; simp
      · simp only [lookupKey, if_neg h0] at h
        simp [ih h]

theorem lookupKey_pruneStore_lastSeen {now : ℚ} {ids : List ℤ} {s : Store}
    {k : ℤ} {v : TrackData} (h : lookupKey (pruneStore now ids s) k = some v) :
    now - v.lastSeen ≤ persistenceDuration := by
  induction s with
  | nil => simp [pruneStore, lookupKey] at h
  | cons hd tl ih =>
      by_cases hc : persistenceDuration < now - hd.2.lastSeen ∨
          (hd.1 < -900 ∧ hd.1 ∉ ids)
      · rw [pruneStore, if_pos hc] at h
        exact ih h
      · rw [pruneStore, if_neg hc] at h
        by_cases h0 : hd.1 = k
        · rw [lookupKey, if_pos h0] at h
          push_neg at hc
          cases h
          exact hc.1
        · rw [lookupKey, if_neg h0] at h
          exact ih h

theorem lookupKey_pruneStore_keep {now : ℚ} {ids : List ℤ} {s : Store}
    {k : ℤ} {v : TrackData} (h : lookupKey s k = some v)
    (h1 : now - v.lastSeen ≤ persistenceDuration)
    (h2 : ¬(k < -900 ∧ k ∉ ids)) :
    lookupKey (pruneStore now ids s) k = some v := by
  induction s with
  | nil => simp [lookupKey] at h
  | cons hd tl ih =>
      by_cases h0 : hd.1 = k
      · rw [lookupKey, if_pos h0] at h
        cases h
        push_neg at h2
        have hc : ¬(persistenceDuration < now - hd.2.lastSeen ∨
            (hd.1 < -900 ∧ hd.1 ∉ ids)) := by
          push_neg
          exact ⟨h1, fun hlow => h0 ▸ h2 (h0 ▸ hlow)⟩
        rw [pruneStore, if_neg hc, lookupKey, if_pos h0]
      · rw [lookupKey, if_neg h0] at h
        by_cases hc : persistenceDuration < now - hd.2.lastSeen ∨
            (hd.1 < -900 ∧ hd.1 ∉ ids)
        · rw [pruneStore, if_pos hc]
          exact ih h
        · rw [pruneStore, if_neg hc, lookupKey, if_neg h0]
          exact ih h

theorem lookupKey_pruneStore_synth_none (now : ℚ) (ids : List ℤ) (s : Store)
    (k : ℤ) (hk : k < -900) (hmem : k ∉ ids) :
    lookupKey (pruneStore now ids s) k = none := by
  induction s with
  | nil => simp [pruneStore, lookupKey]
  | cons hd tl ih =>
      by_cases hc : persistenceDuration < now - hd.2.lastSeen ∨
          (hd.1 < -900 ∧ hd.1 ∉ ids)
      · rw [pruneStore, if_pos hc]; exact ih
      · rw [pruneStore, if_neg hc, lookupKey]
        by_cases h0 : hd.1 = k
        · exact absurd (Or.inr ⟨h0 ▸ hk, h0 ▸ hmem⟩) hc
        · rw [if_neg h0]; exact ih

theorem lookupKey_pruneStore_of_none {now : ℚ} {ids : List ℤ} {s : Store}
    {k : ℤ} (h : lookupKey s k = none) :
    lookupKey (pruneStore now ids s) k = none := by
  induction s with
  | nil => simp [pruneStore, lookupKey]
  | cons hd tl ih =>
      by_cases h0 : hd.1 = k
      · rw [lookupKey, if_pos h0] at h; cases h
      · rw [lookupKey, if_neg h0] at h
        by_cases hc : persistenceDuration < now - hd.2.lastSeen ∨
            (hd.1 < -900 ∧ hd.1 ∉ ids)
        · rw [pruneStore, if_pos hc]; exact ih h
        · rw [pruneStore, if_neg hc, lookupKey, if_neg h0]; exact ih h

theorem lookupKey_pruneStore_expired {now : ℚ} {ids : List ℤ} {s : Store}
    {k : ℤ} {v : TrackData} (hnd : KeysNodup s) (h : lookupKey s k = some v)
    (hold : persistenceDuration < now - v.lastSeen) :
    lookupKey (pruneStore now ids s) k = none := by
  induction s with
  | nil => simp [pruneStore, lookupKey]
  | cons hd tl ih =>
      have hnd' : KeysNodup tl := (List.nodup_cons.mp hnd).2
      by_cases h0 : hd.1 = k
      · rw [lookupKey, if_pos h0] at h
        cases h
        rw [pruneStore, if_pos (Or.inl hold)]
        apply lookupKey_pruneStore_of_none
        have hnk : k ∉ tl.map Prod.fst := h0 ▸ (List.nodup_cons.mp hnd).1
        cases hlk : lookupKey tl k with
        | none => rfl
        | some w => exact absurd (mem_keys_of_lookupKey_eq_some hlk) hnk
      · rw [lookupKey, if_neg h0] at h
        by_cases hc : persistenceDuration < now - hd.2.lastSeen ∨
            (hd.1 < -900 ∧ hd.1 ∉ ids)
        · rw [pruneStore, if_pos hc]; exact ih hnd' h
        · rw [pruneStore, if_neg hc, lookupKey, if_neg h0]; exact ih hnd' h

theorem predictEntry_fst (kv : ℤ × TrackData) : (predictEntry kv).1 = kv.1 := by
  unfold predictEntry; split <;> rfl

theorem predictEntry_snd (kv : ℤ × TrackData) :
    (predictEntry kv).2 = if 0 ≤ kv.1 then predictTrack kv.2 else kv.2 := by
  unfold predictEntry; split <;> simp_all

theorem lookupKey_skipPredict (s : Store) (k : ℤ) :
    lookupKey (skipPredict s) k =
      (lookupKey s k).map (fun v => if 0 ≤ k then predictTrack v else v) := by
  induction s with
  | nil => simp [skipPredict, lookupKey]
  | cons hd tl ih =>
      rw [skipPredict, List.map_cons]
      by_cases h0 : hd.1 = k
      · rw [lookupKey, predictEntry_fst, if_pos h0, lookupKey, if_pos h0]
        simp [predictEntry_snd, h0]
      · rw [lookupKey, predictEntry_fst, if_neg h0, lookupKey, if_neg h0]
        exact ih

theorem keys_skipPredict (s : Store) :
    (skipPredict s).map Prod.fst = s.map Prod.fst := by
  induction s with
  | nil => rfl
  | cons hd tl ih =>
      rw [skipPredict, List.map_cons, List.map_cons, predictEntry_fst,
        List.map_cons]
      rw [skipPredict] at ih
      rw [ih]

theorem mem_keys_insertKey {s : Store} {k x : ℤ} {v : TrackData}
    (h : x ∈ (insertKey s k v).map Prod.fst) : x = k ∨ x ∈ s.map Prod.fst := by
  induction s with
  | nil => simpa [insertKey] using h
  | cons hd tl ih =>
      obtain ⟨k0, v0⟩ := hd
      by_cases h0 : k0 = k
      · subst h0
        rw [insertKey, if_pos rfl] at h
        simpa using h
      · rw [insertKey, if_neg h0, List.map_cons] at h
        rcases List.mem_cons.mp h with h1 | h1
        · simp [h1]
        · rcases ih h1 with h2 | h2
          · exact Or.inl h2
          · exact Or.inr (by simp [h2])

theorem keysNodup_insertKey {s : Store} (h : KeysNodup s) (k : ℤ)
    (v : TrackData) : KeysNodup (insertKey s k v) := by
  induction s with
  | nil => simp [insertKey, KeysNodup]
  | cons hd tl ih =>
      obtain ⟨k0, v0⟩ := hd
      have h1 : k0 ∉ tl.map Prod.fst := (List.nodup_cons.mp h).1
      have h2 : KeysNodup tl := (List.nodup_cons.mp h).2
      by_cases h0 : k0 = k
      · subst h0
        unfold KeysNodup
        rw [insertKey, if_pos rfl, List.map_cons]
        exact List.nodup_cons.mpr ⟨h1, h2⟩
      · unfold KeysNodup
        rw [insertKey, if_neg h0, List.map_cons]
        refine List.nodup_cons.mpr ⟨?_, ih h2⟩
        intro hmem
        rcases mem_keys_insertKey hmem with heq | hmem'
        · exact h0 heq
        · exact h1 hmem'

theorem processOne_snd (now smooth : ℚ) (i : ℕ) (d : Detection) (store : Store)
    (ids : List ℤ) :
    (processOne now smooth i d store ids).2 = detKey i d :: ids := by
  cases hid : d.id with
  | some tid => simp only [processOne, detKey, hid]
  | none => simp only [processOne, detKey, hid]

theorem processOne_fst_eq_insertKey (now smooth : ℚ) (i : ℕ) (d : Detection)
    (store : Store) (ids : List ℤ) :
    ∃ v, (processOne now smooth i d store ids).1 = insertKey store (detKey i d) v := by
  cases hid : d.id with
  | some tid =>
      simp only [processOne, detKey, hid]
      cases lookupKey store tid <;> exact ⟨_, rfl⟩
  | none =>
      simp only [processOne, detKey, hid]
      exact ⟨_, rfl⟩

theorem lookupKey_processOne_ne (now smooth : ℚ) (i : ℕ) (d : Detection)
    (store : Store) (ids : List ℤ) {k : ℤ} (h : detKey i d ≠ k) :
    lookupKey (processOne now smooth i d store ids).1 k = lookupKey store k := by
  obtain ⟨v, hv⟩ := processOne_fst_eq_insertKey now smooth i d store ids
  rw [hv]
  exact lookupKey_insertKey_ne _ _ _ _ h

theorem lookupKey_processOne_noId (now smooth : ℚ) (i : ℕ) (d : Detection)
    (store : Store) (ids : List ℤ) (h : d.id = none) :
    lookupKey (processOne now smooth i d store ids).1 (-1000 - (i : ℤ)) =
      some (newTrack d now) := by
  unfold processOne
  rw [h]
  exact lookupKey_insertKey_self _ _ _

theorem keysNodup_processOne (now smooth : ℚ) (i : ℕ) (d : Detection)
    (store : Store) (ids : List ℤ) (h : KeysNodup store) :
    KeysNodup (processOne now smooth i d store ids).1 := by
  obtain ⟨v, hv⟩ := processOne_fst_eq_insertKey now smooth i d store ids
  rw [hv]
  exact keysNodup_insertKey h _ _

theorem lookupKey_processDetections_of_forall (now smooth : ℚ)
    (ds : List Detection) :
    ∀ (i : ℕ) (store : Store) (ids : List ℤ) (k : ℤ),
      (∀ j d, ds.get? j = some d → detKey (i + j) d ≠ k) →
      lookupKey (processDetections now smooth i ds store ids).1 k =
        lookupKey store k := by
  induction ds with
  | nil => intro i store ids k _; rfl
  | cons d0 ds ih =>
      intro i store ids k h
      rw [processDetections]
      have h0 : detKey i d0 ≠ k := by
        have := h 0 d0 (by rfl)
        simpa using this
      rw [ih (i + 1) _ _ k ?_, lookupKey_processOne_ne now smooth i d0 store ids h0]
      intro j d hget
      have := h (j + 1) d (by simpa using hget)
      have harith : i + (j + 1) = i + 1 + j := by omega
      rwa [harith] at this

theorem keysNodup_processDetections (now smooth : ℚ) (ds : List Detection) :
    ∀ (i : ℕ) (store : Store) (ids : List ℤ), KeysNodup store →
      KeysNodup (processDetections now smooth i ds store ids).1 := by
  induction ds with
  | nil => intro i store ids h; exact h
  | cons d0 ds ih =>
      intro i store ids h
      rw [processDetections]
      exact ih (i + 1) _ _ (keysNodup_processOne now smooth i d0 store ids h)

theorem lookupKey_processDetections_noId (now smooth : ℚ) (ds : List Detection) :
    ∀ (i : ℕ) (store : Store) (ids : List ℤ) (j : ℕ) (d : Detection),
      ds.get? j = some d → d.id = none →
      (∀ d' ∈ ds, ∀ t, d'.id = some t → 0 ≤ t) →
      lookupKey (processDetections now smooth i ds store ids).1
          (-1000 - ((i + j : ℕ) : ℤ)) = some (newTrack d now) := by
  induction ds with
  | nil => intro i store ids j d hget; simp at hget
  | cons d0 ds ih =>
      intro i store ids j d hget hnone hids
      rw [processDetections]
      cases j with
      | zero =>
          have hd0 : d0 = d := by simpa using hget
          subst hd0
          rw [lookupKey_processDetections_of_forall now smooth ds (i + 1) _ _ _ ?_]
          · simpa using lookupKey_processOne_noId now smooth i d0 store ids hnone
          · intro j' d' hget'
            cases hid : d'.id with
            | some t =>
                have ht : 0 ≤ t :=
                  hids d' (List.mem_cons_of_mem _ (List.get?_mem hget')) t hid
                simp only [detKey, hid]
                omega
            | none =>
                simp only [detKey, hid]
                omega
      | succ j' =>
          have hget' : ds.get? j' = some d := by simpa using hget
          have harith : ((i + (j' + 1) : ℕ) : ℤ) = ((i + 1 + j' : ℕ) : ℤ) := by
            push_cast; ring
          rw [harith]
          exact ih (i + 1) _ _ j' d hget' hnone
            (fun d' hd' => hids d' (List.mem_cons_of_mem _ hd'))

theorem mem_ids_processDetections (now smooth : ℚ) (ds : List Detection) :
    ∀ (i : ℕ) (store : Store) (ids : List ℤ) (k : ℤ),
      k ∈ (processDetections now smooth i ds store ids).2 →
      k ∈ ids ∨ ∃ j d, ds.get? j = some d ∧ detKey (i + j) d = k := by
  induction ds with
  | nil => intro i store ids k h; exact Or.inl h
  | cons d0 ds ih =>
      intro i store ids k h
      rw [processDetections] at h
      rcases ih (i + 1) _ _ k h with h1 | ⟨j, d, hget, hkey⟩
      · rw [processOne_snd] at h1
        rcases List.mem_cons.mp h1 with h2 | h2
        · exact Or.inr ⟨0, d0, rfl, by simpa using h2.symm⟩
        · exact Or.inl h2
      · refine Or.inr ⟨j + 1, d, by simpa using hget, ?_⟩
        have harith : i + (j + 1) = i + 1 + j := by omega
        rwa [harith]

/-! ## Lemmas about the renderer -/

theorem applyBlurEffect_outside (cv : CVLib) (style : BlurStyle) (w h : ℤ)
    (img : Image) (x1 y1 x2 y2 x y : ℤ)
    (hout : ¬ insideRegion (max 0 x1) (max 0 y1) (min w x2) (min h y2) x y) :
    applyBlurEffect cv style w h img x1 y1 x2 y2 x y = img x y := by
  unfold applyBlurEffect
  by_cases hdeg : min w x2 ≤ max 0 x1 ∨ min h y2 ≤ max 0 y1
  · rw [if_pos hdeg]
  · rw [if_neg hdeg]
    cases style with
    | pixelate =>
        simp only
        rw [if_neg]
        intro ⟨hx1, hx2, hy1, hy2⟩
        exact hout ⟨hx1, le_of_lt hx2, hy1, le_of_lt hy2⟩
    | solid =>
        simp only
        rw [if_neg]
        intro ⟨hx1, hx2, hy1, hy2⟩
        exact hout ⟨hx1, hx2, hy1, hy2⟩
    | gaussian =>
        simp only
        by_cases hk : 1 < gaussianKsize (min w x2 - max 0 x1).toNat
            (min h y2 - max 0 y1).toNat
        · rw [if_pos hk, if_neg]
          intro ⟨hx1, hx2, hy1, hy2⟩
          exact hout ⟨hx1, le_of_lt hx2, hy1, le_of_lt hy2⟩
        · rw [if_neg hk]

theorem applyBlurEffect_degenerate (cv : CVLib) (style : BlurStyle) (w h : ℤ)
    (img : Image) (x1 y1 x2 y2 : ℤ)
    (hdeg : min w x2 ≤ max 0 x1 ∨ min h y2 ≤ max 0 y1) :
    applyBlurEffect cv style w h img x1 y1 x2 y2 = img := by
  unfold applyBlurEffect
  rw [if_pos hdeg]

theorem paddedRegion_self_clamped (w h : ℤ) (b : Box4) :
    max 0 (paddedRegion w h b).1 = (paddedRegion w h b).1 ∧
    max 0 (paddedRegion w h b).2.1 = (paddedRegion w h b).2.1 ∧
    min w (paddedRegion w h b).2.2.1 = (paddedRegion w h b).2.2.1 ∧
    min h (paddedRegion w h b).2.2.2 = (paddedRegion w h b).2.2.2 := by
  unfold paddedRegion
  refine ⟨?_, ?_, ?_, ?_⟩ <;> simp only [← max_assoc, max_self, ← min_assoc, min_self]

theorem applyBlurEffect_padded_outside (cv : CVLib) (style : BlurStyle)
    (w h : ℤ) (img : Image) (b : Box4) (x y : ℤ)
    (hout : ¬ insideRegion (paddedRegion w h b).1 (paddedRegion w h b).2.1
      (paddedRegion w h b).2.2.1 (paddedRegion w h b).2.2.2 x y) :
    applyBlurEffect cv style w h img (paddedRegion w h b).1
      (paddedRegion w h b).2.1 (paddedRegion w h b).2.2.1
      (paddedRegion w h b).2.2.2 x y = img x y := by
  apply applyBlurEffect_outside
  obtain ⟨h1, h2, h3, h4⟩ := paddedRegion_self_clamped w h b
  rw [h1, h2, h3, h4]
  exact hout

theorem renderBlurs_outside (cv : CVLib) (style : BlurStyle) (w h : ℤ)
    (tracks : List TrackData) :
    ∀ (img : Image) (x y : ℤ),
      (∀ t ∈ tracks, ¬ insideRegion (paddedRegion w h t.box).1
        (paddedRegion w h t.box).2.1 (paddedRegion w h t.box).2.2.1
        (paddedRegion w h t.box).2.2.2 x y) →
      renderBlurs cv style w h tracks img x y = img x y := by
  induction tracks with
  | nil => intro img x y _; rfl
  | cons t ts ih =>
      intro img x y hout
      simp only [renderBlurs, List.foldl_cons] at ih ⊢
      rw [ih _ x y (fun t' ht' => hout t' (List.mem_cons_of_mem t ht'))]
      exact applyBlurEffect_padded_outside cv style w h img t.box x y
        (hout t (List.mem_cons_self t ts))

/-! ## Claim theorems -/

/-- C4: On every skip cycle, every real-id track's box becomes
`oldBox[i] + oldVelocity[i]` while velocity, label and `lastSeen` remain
unchanged, and no synthetic-key track is ever extrapolated; in particular a
track with id 5, box `[0,0,50,50]` and velocity `[2,2,2,2]` has box
`[2,2,52,52]` after one skip cycle, with `lastSeen` equal to its pre-skip
value. -/
theorem skip_cycle_extrapolates_real_tracks_only :
    (∀ (s : Store) (k : ℤ) (v : TrackData), lookupKey s k = some v →
      lookupKey (skipPredict s) k = some (if 0 ≤ k then predictTrack v else v)) ∧
    (∀ v : TrackData,
      (predictTrack v).box = ⟨v.box.x1 + v.velocity.x1, v.box.y1 + v.velocity.y1,
        v.box.x2 + v.velocity.x2, v.box.y2 + v.velocity.y2⟩ ∧
      (predictTrack v).velocity = v.velocity ∧
      (predictTrack v).label = v.label ∧
      (predictTrack v).lastSeen = v.lastSeen) ∧
    (∀ smooth now t0 : ℚ, now - t0 ≤ persistenceDuration →
      lookupKey (runCycle smooth now none
          [(5, ⟨⟨0, 0, 50, 50⟩, ⟨2, 2, 2, 2⟩, "BLURRED", t0⟩)]) 5 =
        some ⟨⟨2, 2, 52, 52⟩, ⟨2, 2, 2, 2⟩, "BLURRED", t0⟩) := by
  refine ⟨?_, ?_, ?_⟩
  · intro s k v h
    rw [lookupKey_skipPredict, h]
    rfl
  · intro v
    exact ⟨rfl, rfl, rfl, rfl⟩
  · intro smooth now t0 h
    simp only [runCycle]
    have h1 : lookupKey (skipPredict
        [(5, ⟨⟨0, 0, 50, 50⟩, ⟨2, 2, 2, 2⟩, "BLURRED", t0⟩)]) 5 =
        some ⟨⟨2, 2, 52, 52⟩, ⟨2, 2, 2, 2⟩, "BLURRED", t0⟩ := by
      rw [lookupKey_skipPredict]
      norm_num [lookupKey, predictTrack]
    refine lookupKey_pruneStore_keep h1 h ?_
    rintro ⟨h5, -⟩
    omega

/-- C5: After the prune step of every cycle, every remaining track has
`lastSeen` no older than `persistenceDuration` relative to that cycle's
timestamp; a real-id track last truly detected at `t0` is still present when
a cycle runs at `t0 + persistenceDuration - eps` and absent after any cycle
(skip or detection-bearing, as long as it is not re-detected) running at
`t0 + persistenceDuration + eps`, for `eps > 0`. -/
theorem persistence_window :
    (∀ (now : ℚ) (ids : List ℤ) (s : Store) (k : ℤ) (v : TrackData),
      lookupKey (pruneStore now ids s) k = some v →
      now - v.lastSeen ≤ persistenceDuration) ∧
    (∀ (smooth t0 eps : ℚ) (s : Store) (k : ℤ) (v : TrackData),
      0 < eps → 0 ≤ k → lookupKey s k = some v → v.lastSeen = t0 →
      (lookupKey (runCycle smooth (t0 + persistenceDuration - eps) none s)
        k).isSome) ∧
    (∀ (smooth t0 eps : ℚ) (s : Store) (k : ℤ) (v : TrackData),
      0 < eps → KeysNodup s → lookupKey s k = some v → v.lastSeen = t0 →
      lookupKey (runCycle smooth (t0 + persistenceDuration + eps) none s) k =
        none) ∧
    (∀ (smooth t0 eps : ℚ) (dets : List Detection) (s : Store) (k : ℤ)
      (v : TrackData),
      0 < eps → 0 ≤ k → (∀ d ∈ dets, d.id ≠ some k) →
      lookupKey s k = some v → v.lastSeen = t0 →
      lookupKey (runCycle smooth (t0 + persistenceDuration - eps) (some dets) s)
        k = some v) ∧
    (∀ (smooth t0 eps : ℚ) (dets : List Detection) (s : Store) (k : ℤ)
      (v : TrackData),
      0 < eps → 0 ≤ k → (∀ d ∈ dets, d.id ≠ some k) → KeysNodup s →
      lookupKey s k = some v → v.lastSeen = t0 →
      lookupKey (runCycle smooth (t0 + persistenceDuration + eps) (some dets) s)
        k = none) := by
  have huntouched : ∀ (now smooth : ℚ) (dets : List Detection) (s : Store)
      (k : ℤ), 0 ≤ k → (∀ d ∈ dets, d.id ≠ some k) →
      lookupKey (processDetections now smooth 0 dets s []).1 k = lookupKey s k := by
    intro now smooth dets s k hk hne
    apply lookupKey_processDetections_of_forall
    intro j d hget
    cases hid : d.id with
    | some t =>
        simp only [detKey, hid]
        intro heq
        exact hne d (List.get?_mem hget) (by rw [hid, heq])
    | none =>
        simp only [detKey, hid]
        omega
  refine ⟨fun now ids s k v h => lookupKey_pruneStore_lastSeen h, ?_, ?_, ?_, ?_⟩
  · intro smooth t0 eps s k v heps hk hlk hls
    simp only [runCycle]
    have h1 : lookupKey (skipPredict s) k = some (predictTrack v) := by
      rw [lookupKey_skipPredict, hlk]
      simp [hk]
    rw [lookupKey_pruneStore_keep h1 ?_ ?_]
    · rfl
    · show t0 + persistenceDuration - eps - (predictTrack v).lastSeen ≤ _
      have : (predictTrack v).lastSeen = t0 := by rw [show (predictTrack v).lastSeen = v.lastSeen from rfl, hls]
      rw [this]
      linarith
    · rintro ⟨hkk, -⟩
      omega
  · intro smooth t0 eps s k v heps hnd hlk hls
    simp only [runCycle]
    have hnd' : KeysNodup (skipPredict s) := by
      unfold KeysNodup
      rw [keys_skipPredict]
      exact hnd
    have h1 : lookupKey (skipPredict s) k =
        some (if 0 ≤ k then predictTrack v else v) := by
      rw [lookupKey_skipPredict, hlk]
      rfl
    refine lookupKey_pruneStore_expired hnd' h1 ?_
    have : (if 0 ≤ k then predictTrack v else v).lastSeen = t0 := by
      by_cases h0 : 0 ≤ k <;> simp [h0, predictTrack, hls]
    rw [this]
    linarith
  · intro smooth t0 eps dets s k v heps hk hne hlk hls
    simp only [runCycle]
    have hpre := huntouched (t0 + persistenceDuration - eps) smooth dets s k hk hne
    refine lookupKey_pruneStore_keep (hpre.trans hlk) ?_ ?_
    · rw [hls]; linarith
    · rintro ⟨hkk, -⟩
      omega
  · intro smooth t0 eps dets s k v heps hk hne hnd hlk hls
    simp only [runCycle]
    have hpre := huntouched (t0 + persistenceDuration + eps) smooth dets s k hk hne
    refine lookupKey_pruneStore_expired
      (keysNodup_processDetections _ _ dets 0 s [] hnd) (hpre.trans hlk) ?_
    rw [hls]
    linarith

theorem skip_cycle_extrapolates_real_tracks_only_witness :
    lookupKey (skipPredict [(5, ⟨⟨0, 0, 50, 50⟩, ⟨2, 2, 2, 2⟩, "BLURRED", 1⟩)]) 5 =
      some (if 0 ≤ (5 : ℤ) then predictTrack ⟨⟨0, 0, 50, 50⟩, ⟨2, 2, 2, 2⟩, "BLURRED", 1⟩
        else ⟨⟨0, 0, 50, 50⟩, ⟨2, 2, 2, 2⟩, "BLURRED", 1⟩) ∧
    (1 : ℚ) - 1 ≤ persistenceDuration ∧
    lookupKey (runCycle 1 1 none
        [(5, ⟨⟨0, 0, 50, 50⟩, ⟨2, 2, 2, 2⟩, "BLURRED", 1⟩)]) 5 =
      some ⟨⟨2, 2, 52, 52⟩, ⟨2, 2, 2, 2⟩, "BLURRED", 1⟩ :=
  ⟨skip_cycle_extrapolates_real_tracks_only.1 _ 5 _ rfl,
   by norm_num [persistenceDuration],
   skip_cycle_extrapolates_real_tracks_only.2.2 1 1 1
     (by norm_num [persistenceDuration])⟩

theorem persistence_window_witness :
    ((1 : ℚ) - 1 ≤ persistenceDuration) ∧
    (lookupKey (runCycle 1 (0 + persistenceDuration - 1/4) none
        [(5, ⟨⟨0, 0, 10, 10⟩, zeroVel, "L", 0⟩)]) 5).isSome ∧
    lookupKey (runCycle 1 (0 + persistenceDuration + 1/4) none
        [(5, ⟨⟨0, 0, 10, 10⟩, zeroVel, "L", 0⟩)]) 5 = none ∧
    lookupKey (runCycle 1 (0 + persistenceDuration - 1/4) (some [])
        [(5, ⟨⟨0, 0, 10, 10⟩, zeroVel, "L", 0⟩)]) 5 =
      some ⟨⟨0, 0, 10, 10⟩, zeroVel, "L", 0⟩ ∧
    lookupKey (runCycle 1 (0 + persistenceDuration + 1/4) (some [])
        [(5, ⟨⟨0, 0, 10, 10⟩, zeroVel, "L", 0⟩)]) 5 = none :=
  ⟨persistence_window.1 1 [] [(5, ⟨⟨0, 0, 10, 10⟩, zeroVel, "L", 1⟩)] 5
     ⟨⟨0, 0, 10, 10⟩, zeroVel, "L", 1⟩
     (by norm_num [pruneStore, lookupKey, persistenceDuration]),
   persistence_window.2.1 1 0 (1/4) _ 5 _ (by norm_num) (by decide) rfl rfl,
   persistence_window.2.2.1 1 0 (1/4) _ 5 _ (by norm_num) (by decide) rfl rfl,
   persistence_window.2.2.2.1 1 0 (1/4) [] _ 5 _ (by norm_num) (by decide)
     (by simp) rfl rfl,
   persistence_window.2.2.2.2 1 0 (1/4) [] _ 5 _ (by norm_num) (by decide)
     (by simp) (by decide) rfl rfl⟩

/-- C6: A synthetic-key track whose key is not among the keys matched in the
current detection-bearing cycle is absent from the store after that cycle's
prune step, regardless of `persistenceDuration`; skip cycles do not count as
misses for synthetic tracks; real-id tracks survive detector misses up to
`persistenceDuration`. -/
theorem synthetic_tracks_never_survive_a_miss :
    (∀ (now smooth : ℚ) (dets : List Detection) (s : Store) (k : ℤ),
      k < -900 → k ∉ (processDetections now smooth 0 dets s []).2 →
      lookupKey (runCycle smooth now (some dets) s) k = none) ∧
    (∀ (now smooth : ℚ) (s : Store) (k : ℤ) (v : TrackData), k < 0 →
      lookupKey s k = some v → now - v.lastSeen ≤ persistenceDuration →
      lookupKey (runCycle smooth now none s) k = some v) ∧
    (∀ (now smooth : ℚ) (dets : List Detection) (s : Store) (k : ℤ)
      (v : TrackData), 0 ≤ k → (∀ d ∈ dets, d.id ≠ some k) →
      lookupKey s k = some v → now - v.lastSeen ≤ persistenceDuration →
      lookupKey (runCycle smooth now (some dets) s) k = some v) := by
  refine ⟨?_, ?_, ?_⟩
  · intro now smooth dets s k hk hmem
    simp only [runCycle]
    exact lookupKey_pruneStore_synth_none now _ _ k hk hmem
  · intro now smooth s k v hk hlk hfresh
    simp only [runCycle]
    have h1 : lookupKey (skipPredict s) k = some v := by
      rw [lookupKey_skipPredict, hlk]
      simp [not_le.mpr hk]
    refine lookupKey_pruneStore_keep h1 hfresh ?_
    rintro ⟨-, hout⟩
    exact hout (mem_keys_of_lookupKey_eq_some hlk)
  · intro now smooth dets s k v hk hne hlk hfresh
    simp only [runCycle]
    have hpre : lookupKey (processDetections now smooth 0 dets s []).1 k =
        lookupKey s k := by
      apply lookupKey_processDetections_of_forall
      intro j d hget
      cases hid : d.id with
      | some t =>
          simp only [detKey, hid]
          intro heq
          exact hne d (List.get?_mem hget) (by rw [hid, heq])
      | none =>
          simp only [detKey, hid]
          omega
    refine lookupKey_pruneStore_keep (hpre.trans hlk) hfresh ?_
    rintro ⟨hkk, -⟩
    omega

theorem synthetic_tracks_never_survive_a_miss_witness :
    lookupKey (runCycle 1 1 (some [])
        [(-1000, ⟨⟨0, 0, 10, 10⟩, zeroVel, "L", 1⟩)]) (-1000) = none ∧
    lookupKey (runCycle 1 1 none
        [(-1000, ⟨⟨0, 0, 10, 10⟩, zeroVel, "L", 1⟩)]) (-1000) =
      some ⟨⟨0, 0, 10, 10⟩, zeroVel, "L", 1⟩ ∧
    lookupKey (runCycle 1 1 (some [])
        [(5, ⟨⟨0, 0, 10, 10⟩, zeroVel, "L", 1⟩)]) 5 =
      some ⟨⟨0, 0, 10, 10⟩, zeroVel, "L", 1⟩ :=
  ⟨synthetic_tracks_never_survive_a_miss.1 1 1 [] _ (-1000) (by decide)
     (by simp [processDetections]),
   synthetic_tracks_never_survive_a_miss.2.1 1 1 _ (-1000) _ (by decide) rfl
     (by norm_num [persistenceDuration]),
   synthetic_tracks_never_survive_a_miss.2.2 1 1 [] _ 5 _ (by decide) (by simp)
     rfl (by norm_num [persistenceDuration])⟩

/-- C3: For every track matched to a detection on a detection-bearing cycle,
the updated track equals the spec's motion model: raw velocity, mean-speed
adaptive smoothing (`max(0.1, smoothFactor - 0.3)` when speed > 20),
exponential box smoothing, per-axis size stabilization (old width/height kept
and re-centered on the new center whenever the relative change is below
0.05), 50/50 velocity smoothing, label refresh and `lastSeen = now`. -/
theorem matched_update_follows_spec_motion_model :
    ∀ (smooth : ℚ) (old : TrackData) (newBox : Box4) (label : String) (now : ℚ),
      updateMatched smooth old newBox label now =
        specMotionUpdate smooth old newBox label now := by
  intro smooth old newBox label now
  unfold updateMatched specMotionUpdate
  dsimp only
  split_ifs <;>
    (congr 1 <;> first
      | rfl
      | (congr 1 <;> ring))

theorem convex_combo_bounds (s o n : ℚ) (h0 : 0 ≤ s) (h1 : s ≤ 1) :
    min o n ≤ s * o + (1 - s) * n ∧ s * o + (1 - s) * n ≤ max o n := by
  constructor
  · rcases le_total o n with h | h
    · rw [min_eq_left h]; nlinarith
    · rw [min_eq_right h]; nlinarith
  · rcases le_total o n with h | h
    · rw [max_eq_right h]; nlinarith
    · rw [max_eq_left h]; nlinarith

theorem center_updateMatched (smooth : ℚ) (old : TrackData) (nb : Box4)
    (label : String) (now : ℚ) (hsp : meanSpeed old.box nb ≤ 20) :
    centerX (updateMatched smooth old nb label now).box =
      smooth * centerX old.box + (1 - smooth) * centerX nb ∧
    centerY (updateMatched smooth old nb label now).box =
      smooth * centerY old.box + (1 - smooth) * centerY nb := by
  unfold meanSpeed at hsp
  unfold updateMatched centerX centerY
  dsimp only
  rw [if_neg (not_lt.mpr hsp)]
  constructor <;> (split_ifs <;> dsimp only <;> ring)

/-- C8 (counterexample): with `smoothFactor = 1/2`, a track at `[0,0,10,10]`
matched to the constant detection box `[0,0,10.2,10.2]` (mean speed `1/10`,
no fast-motion trigger) gets `x1 = 1/20` after one update: the size
stabilizer keeps the old width re-centered on the new center, pushing `x1`
beyond both its previous value `0` and the target's value `0`, so a
coordinate does not stay between its previous and target values. -/
theorem smoothing_overshoot_counterexample :
    (updateMatched (1/2) ⟨⟨0, 0, 10, 10⟩, zeroVel, "L", 0⟩
        ⟨0, 0, 51/5, 51/5⟩ "L" 1).box.x1 = 1/20 ∧
    meanSpeed (⟨0, 0, 10, 10⟩ : Box4) ⟨0, 0, 51/5, 51/5⟩ ≤ 20 ∧
    ¬((updateMatched (1/2) ⟨⟨0, 0, 10, 10⟩, zeroVel, "L", 0⟩
        ⟨0, 0, 51/5, 51/5⟩ "L" 1).box.x1 ≤
          max (0 : ℚ) 0) := by
  refine ⟨?_, by norm_num [meanSpeed, abs_of_nonneg], ?_⟩ <;>
    norm_num [updateMatched, meanSpeed, zeroVel, abs_of_nonneg, max_def, min_def]

/-- C8 (amended): under constant-target matching with `smoothFactor ∈ [0,1]`
and no fast-motion trigger, the box center per axis is an exact convex
combination of the old center and the target center: it contracts toward the
target by factor `smoothFactor` and stays between the previous center and the
target center on every update (individual coordinates may leave that interval
when size stabilization triggers, as the counterexample shows). -/
theorem smoothing_center_converges_without_overshoot :
    ∀ (smooth : ℚ) (old : TrackData) (nb : Box4) (label : String) (now : ℚ),
      0 ≤ smooth → smooth ≤ 1 → meanSpeed old.box nb ≤ 20 →
      (centerX (updateMatched smooth old nb label now).box =
          smooth * centerX old.box + (1 - smooth) * centerX nb ∧
        centerY (updateMatched smooth old nb label now).box =
          smooth * centerY old.box + (1 - smooth) * centerY nb) ∧
      (|centerX (updateMatched smooth old nb label now).box - centerX nb| =
          smooth * |centerX old.box - centerX nb| ∧
        |centerY (updateMatched smooth old nb label now).box - centerY nb| =
          smooth * |centerY old.box - centerY nb|) ∧
      (min (centerX old.box) (centerX nb) ≤
          centerX (updateMatched smooth old nb label now).box ∧
        centerX (updateMatched smooth old nb label now).box ≤
          max (centerX old.box) (centerX nb) ∧
        min (centerY old.box) (centerY nb) ≤
          centerY (updateMatched smooth old nb label now).box ∧
        centerY (updateMatched smooth old nb label now).box ≤
          max (centerY old.box) (centerY nb)) := by
  intro smooth old nb label now h0 h1 hsp
  obtain ⟨hx, hy⟩ := center_updateMatched smooth old nb label now hsp
  have hcx := convex_combo_bounds smooth (centerX old.box) (centerX nb) h0 h1
  have hcy := convex_combo_bounds smooth (centerY old.box) (centerY nb) h0 h1
  refine ⟨⟨hx, hy⟩, ⟨?_, ?_⟩, ?_, ?_, ?_, ?_⟩
  · rw [hx, show smooth * centerX old.box + (1 - smooth) * centerX nb - centerX nb
        = smooth * (centerX old.box - centerX nb) by ring, abs_mul,
      abs_of_nonneg h0]
  · rw [hy, show smooth * centerY old.box + (1 - smooth) * centerY nb - centerY nb
        = smooth * (centerY old.box - centerY nb) by ring, abs_mul,
      abs_of_nonneg h0]
  · rw [hx]; exact hcx.1
  · rw [hx]; exact hcx.2
  · rw [hy]; exact hcy.1
  · rw [hy]; exact hcy.2

theorem smoothing_center_converges_without_overshoot_witness :
    (0 : ℚ) ≤ 1/2 ∧
    meanSpeed (⟨0, 0, 10, 10⟩ : Box4) ⟨20, 20, 30, 30⟩ ≤ 20 ∧
    centerX (updateMatched (1/2) ⟨⟨0, 0, 10, 10⟩, zeroVel, "L", 0⟩
        ⟨20, 20, 30, 30⟩ "L" 1).box =
      (1/2) * centerX (⟨0, 0, 10, 10⟩ : Box4) +
        (1 - 1/2) * centerX ⟨20, 20, 30, 30⟩ ∧
    centerX (updateMatched (1/2) ⟨⟨0, 0, 10, 10⟩, zeroVel, "L", 0⟩
        ⟨20, 20, 30, 30⟩ "L" 1).box ≤
      max (centerX (⟨0, 0, 10, 10⟩ : Box4)) (centerX ⟨20, 20, 30, 30⟩) :=
  ⟨by norm_num,
   by norm_num [meanSpeed],
   ((smoothing_center_converges_without_overshoot (1/2)
      ⟨⟨0, 0, 10, 10⟩, zeroVel, "L", 0⟩ ⟨20, 20, 30, 30⟩ "L" 1
      (by norm_num) (by norm_num) (by norm_num [meanSpeed])).1).1,
   by
     have h := ((smoothing_center_converges_without_overshoot (1/2)
       ⟨⟨0, 0, 10, 10⟩, zeroVel, "L", 0⟩ ⟨20, 20, 30, 30⟩ "L" 1
       (by norm_num) (by norm_num) (by norm_num [meanSpeed])).2).2
     exact h.2.1⟩

/-- C1 (counterexample): with one unmatched track at `[0,0,10,10]` (velocity
`[4,4,4,4]`) in the store and one id-less detection at the very same box
(IoU `1 > 0.3`), the spec's Association Engine would match them and smooth
(velocity becomes `[2,2,2,2]`), but the code replaces the entry with a brand
new track (velocity `[0,0,0,0]`): the code performs no IoU matching. -/
theorem iou_association_counterexample :
    (processDetections 2 (1/2) 0 [⟨⟨0, 0, 10, 10⟩, "L", none⟩]
        [(-1000, ⟨⟨0, 0, 10, 10⟩, ⟨4, 4, 4, 4⟩, "L", 1⟩)] []).1 =
      [(-1000, ⟨⟨0, 0, 10, 10⟩, zeroVel, "L", 2⟩)] ∧
    specAssociate 2 (1/2) [⟨⟨0, 0, 10, 10⟩, "L", none⟩]
        [(-1000, ⟨⟨0, 0, 10, 10⟩, ⟨4, 4, 4, 4⟩, "L", 1⟩)] [] (-1001) =
      [(-1000, ⟨⟨0, 0, 10, 10⟩, ⟨2, 2, 2, 2⟩, "L", 2⟩)] ∧
    iou (⟨0, 0, 10, 10⟩ : Box4) ⟨0, 0, 10, 10⟩ = 1 ∧
    (processDetections 2 (1/2) 0 [⟨⟨0, 0, 10, 10⟩, "L", none⟩]
        [(-1000, ⟨⟨0, 0, 10, 10⟩, ⟨4, 4, 4, 4⟩, "L", 1⟩)] []).1 ≠
      specAssociate 2 (1/2) [⟨⟨0, 0, 10, 10⟩, "L", none⟩]
        [(-1000, ⟨⟨0, 0, 10, 10⟩, ⟨4, 4, 4, 4⟩, "L", 1⟩)] [] (-1001) := by
  have h1 : (processDetections 2 (1/2) 0 [⟨⟨0, 0, 10, 10⟩, "L", none⟩]
      [(-1000, ⟨⟨0, 0, 10, 10⟩, ⟨4, 4, 4, 4⟩, "L", 1⟩)] []).1 =
      [(-1000, ⟨⟨0, 0, 10, 10⟩, zeroVel, "L", 2⟩)] := by
    norm_num [processDetections, processOne, insertKey, newTrack, zeroVel]
  have h2 : specAssociate 2 (1/2) [⟨⟨0, 0, 10, 10⟩, "L", none⟩]
      [(-1000, ⟨⟨0, 0, 10, 10⟩, ⟨4, 4, 4, 4⟩, "L", 1⟩)] [] (-1001) =
      [(-1000, ⟨⟨0, 0, 10, 10⟩, ⟨2, 2, 2, 2⟩, "L", 2⟩)] := by
    norm_num [specAssociate, bestIoUMatch, iou, lookupKey, insertKey,
      updateMatched, abs_of_nonneg, max_def, min_def]
  refine ⟨h1, h2, by norm_num [iou, max_def, min_def], ?_⟩
  rw [h1, h2]
  simp [zeroVel]

/-- C1 (amended): identified detections are matched directly by key (updating
the existing track through the smoothing path, or creating one when absent);
a detection with no id never undergoes geometric matching: it always starts a
brand-new track under the synthetic key `-1000 - i`, `i` its index in the
batch, regardless of any overlap with existing tracks. -/
theorem association_by_key_only :
    (∀ (now smooth : ℚ) (i : ℕ) (d : Detection) (store : Store) (ids : List ℤ)
       (tid : ℤ) (old : TrackData), d.id = some tid →
       lookupKey store tid = some old →
       lookupKey (processOne now smooth i d store ids).1 tid =
         some (updateMatched smooth old d.box d.label now)) ∧
    (∀ (now smooth : ℚ) (i : ℕ) (d : Detection) (store : Store) (ids : List ℤ)
       (tid : ℤ), d.id = some tid → lookupKey store tid = none →
       lookupKey (processOne now smooth i d store ids).1 tid =
         some (newTrack d now)) ∧
    (∀ (now smooth : ℚ) (dets : List Detection) (store : Store) (j : ℕ)
       (d : Detection), dets.get? j = some d → d.id = none →
       (∀ d' ∈ dets, ∀ t, d'.id = some t → 0 ≤ t) →
       lookupKey (processDetections now smooth 0 dets store []).1
           (-1000 - (j : ℤ)) = some (newTrack d now)) := by
  refine ⟨?_, ?_, ?_⟩
  · intro now smooth i d store ids tid old hid hlk
    simp only [processOne, hid, hlk]
    exact lookupKey_insertKey_self _ _ _
  · intro now smooth i d store ids tid hid hlk
    simp only [processOne, hid, hlk]
    exact lookupKey_insertKey_self _ _ _
  · intro now smooth dets store j d hget hnone hids
    have := lookupKey_processDetections_noId now smooth dets 0 store [] j d
      hget hnone hids
    simpa using this

theorem association_by_key_only_witness :
    lookupKey (processOne 2 (1/2) 0 ⟨⟨0, 0, 10, 10⟩, "L", some 7⟩
        [(7, ⟨⟨0, 0, 8, 8⟩, zeroVel, "L", 1⟩)] []).1 7 =
      some (updateMatched (1/2) ⟨⟨0, 0, 8, 8⟩, zeroVel, "L", 1⟩
        ⟨0, 0, 10, 10⟩ "L" 2) ∧
    lookupKey (processOne 2 (1/2) 0 ⟨⟨0, 0, 10, 10⟩, "L", some 7⟩ [] []).1 7 =
      some (newTrack ⟨⟨0, 0, 10, 10⟩, "L", some 7⟩ 2) ∧
    lookupKey (processDetections 2 (1/2) 0 [⟨⟨0, 0, 10, 10⟩, "L", none⟩] [] []).1
        (-1000 - ((0 : ℕ) : ℤ)) =
      some (newTrack ⟨⟨0, 0, 10, 10⟩, "L", none⟩ 2) :=
  ⟨association_by_key_only.1 2 (1/2) 0 _ _ [] 7 _ rfl rfl,
   association_by_key_only.2.1 2 (1/2) 0 _ [] [] 7 rfl rfl,
   association_by_key_only.2.2 2 (1/2) _ [] 0 _ rfl rfl
     (by rintro d' hd' t ht; simp_all)⟩

/-- C2 (counterexample): two consecutive detection-bearing cycles, each with
a single id-less detection, both allocate the very same synthetic key
`-1000`; after the second cycle the key hosts the second cycle's brand-new
track, so synthetic keys are reused across cycles. -/
theorem synthetic_key_reuse_counterexample :
    (processDetections 1 (1/2) 0 [⟨⟨0, 0, 10, 10⟩, "A", none⟩] [] []).2 =
      [-1000] ∧
    (processDetections 2 (1/2) 0 [⟨⟨20, 20, 30, 30⟩, "B", none⟩]
        (processDetections 1 (1/2) 0 [⟨⟨0, 0, 10, 10⟩, "A", none⟩] [] []).1
        []).2 = [-1000] ∧
    lookupKey (processDetections 2 (1/2) 0 [⟨⟨20, 20, 30, 30⟩, "B", none⟩]
        (processDetections 1 (1/2) 0 [⟨⟨0, 0, 10, 10⟩, "A", none⟩] [] []).1
        []).1 (-1000) = some ⟨⟨20, 20, 30, 30⟩, zeroVel, "B", 2⟩ := by
  refine ⟨?_, ?_, ?_⟩ <;>
    norm_num [processDetections, processOne, insertKey, lookupKey, newTrack,
      zeroVel]

/-- C2 (amended): synthetic keys are drawn from the negative range
`≤ -1000`, disjoint from the (non-negative) real detector ids; the key
allocated to an id-less detection is exactly `-1000 - j` for its batch index
`j`, so the same synthetic key is reallocated in any later cycle whose batch
has an id-less detection at the same index. -/
theorem synthetic_key_range_and_determinism :
    ∀ (now smooth : ℚ) (dets : List Detection) (store : Store) (k : ℤ),
      (∀ d ∈ dets, ∀ t, d.id = some t → 0 ≤ t) →
      k ∈ (processDetections now smooth 0 dets store []).2 → k < 0 →
      k ≤ -1000 ∧ ∃ j d, dets.get? j = some d ∧ d.id = none ∧
        k = -1000 - (j : ℤ) := by
  intro now smooth dets store k hids hmem hneg
  rcases mem_ids_processDetections now smooth dets 0 store [] k hmem with
    h | ⟨j, d, hget, hkey⟩
  · simp at h
  · cases hid : d.id with
    | some t =>
        simp only [detKey, hid] at hkey
        have := hids d (List.get?_mem hget) t hid
        omega
    | none =>
        simp only [detKey, hid] at hkey
        have hz : (0 : ℕ) + j = j := by omega
        rw [hz] at hkey
        exact ⟨by omega, j, d, hget, hid, by omega⟩

theorem synthetic_key_range_and_determinism_witness :
    (-1000 : ℤ) ≤ -1000 ∧ ∃ j d,
      [(⟨⟨0, 0, 10, 10⟩, "A", none⟩ : Detection)].get? j = some d ∧
      d.id = none ∧ (-1000 : ℤ) = -1000 - (j : ℤ) :=
  synthetic_key_range_and_determinism 1 (1/2) [⟨⟨0, 0, 10, 10⟩, "A", none⟩] []
    (-1000) (by rintro d' hd' t ht; simp_all)
    (by norm_num [processDetections, processOne, insertKey])
    (by decide)

/-- C7 (counterexample): an id-less detection with the degenerate box
`[10,10,5,20]` (`x2 ≤ x1`) is stored verbatim by a full detection-bearing
cycle and survives the prune step, so degenerate detections are neither
clamped nor discarded before association and a stored track box can violate
`x2 > x1`. -/
theorem degenerate_box_stored_counterexample :
    lookupKey (runCycle (1/2) 1 (some [⟨⟨10, 10, 5, 20⟩, "L", none⟩]) [])
        (-1000) = some ⟨⟨10, 10, 5, 20⟩, zeroVel, "L", 1⟩ ∧
    (⟨10, 10, 5, 20⟩ : Box4).x2 ≤ (⟨10, 10, 5, 20⟩ : Box4).x1 := by
  constructor
  · norm_num [runCycle, processDetections, processOne, insertKey, newTrack,
      pruneStore, lookupKey, persistenceDuration, zeroVel]
  · norm_num

/-- C7 (amended): detection boxes enter the track store verbatim, with no
clamping and no degeneracy filter (even a box with `x2 ≤ x1` or `y2 ≤ y1` is
stored); degeneracy is handled only at render time, where
`apply_blur_effect` clamps the requested region to the frame and silently
does nothing when the clamped region has zero area. -/
theorem degenerate_boxes_stored_and_skipped_at_render :
    (∀ (now smooth : ℚ) (i : ℕ) (d : Detection) (store : Store)
       (ids : List ℤ), d.id = none →
       d.box.x2 ≤ d.box.x1 ∨ d.box.y2 ≤ d.box.y1 →
       lookupKey (processOne now smooth i d store ids).1 (-1000 - (i : ℤ)) =
         some (newTrack d now)) ∧
    (∀ (cv : CVLib) (style : BlurStyle) (w h : ℤ) (img : Image)
       (x1 y1 x2 y2 : ℤ), min w x2 ≤ max 0 x1 ∨ min h y2 ≤ max 0 y1 →
       applyBlurEffect cv style w h img x1 y1 x2 y2 = img) := by
  refine ⟨?_, ?_⟩
  · intro now smooth i d store ids hid _
    exact lookupKey_processOne_noId now smooth i d store ids hid
  · intro cv style w h img x1 y1 x2 y2 hdeg
    exact applyBlurEffect_degenerate cv style w h img x1 y1 x2 y2 hdeg

theorem degenerate_boxes_stored_and_skipped_at_render_witness :
    lookupKey (processOne 1 (1/2) 0 ⟨⟨10, 10, 5, 20⟩, "L", none⟩ [] []).1
        (-1000 - ((0 : ℕ) : ℤ)) =
      some (newTrack ⟨⟨10, 10, 5, 20⟩, "L", none⟩ 1) ∧
    applyBlurEffect ⟨fun _ _ _ => fun _ _ => (0, 0, 0),
        fun _ _ _ => fun _ _ => (0, 0, 0), fun _ _ => fun _ _ => (0, 0, 0)⟩
      BlurStyle.pixelate 100 100 (fun _ _ => (7, 7, 7)) 30 30 20 60 =
      (fun _ _ => (7, 7, 7)) :=
  ⟨degenerate_boxes_stored_and_skipped_at_render.1 1 (1/2) 0 _ [] [] rfl
     (by norm_num),
   degenerate_boxes_stored_and_skipped_at_render.2 _ BlurStyle.pixelate 100 100
     _ 30 30 20 60 (by norm_num)⟩

/-- C9 (counterexample): the pixelate style does not downscale to a fixed
10×10 grid: a 200×200 region is downscaled to a 20×20 grid
(`w_small = max(1, w_roi // 10)`), more than 10 cells per axis. -/
theorem pixelate_grid_counterexample :
    pixelateSmallDims 200 200 = (20, 20) ∧
    ¬((pixelateSmallDims 200 200).1 ≤ 10) := by decide

/-- C9 (amended): the pixelate style downscales the region to a grid of
`max(1, w//10) × max(1, h//10)` cells — cells of roughly 10 pixels, never
fewer than one cell per axis — and this grid grows with the region instead of
being capped at 10×10; the small image is then upscaled back with
nearest-neighbor interpolation. -/
theorem pixelate_grid_tracks_region_size :
    ∀ w h : ℕ, 10 ≤ w → 10 ≤ h →
      (pixelateSmallDims w h).1 = w / 10 ∧
      (pixelateSmallDims w h).2 = h / 10 ∧
      1 ≤ (pixelateSmallDims w h).1 ∧ 1 ≤ (pixelateSmallDims w h).2 ∧
      10 * (pixelateSmallDims w h).1 ≤ w ∧
      w < 10 * (pixelateSmallDims w h).1 + 10 ∧
      10 * (pixelateSmallDims w h).2 ≤ h ∧
      h < 10 * (pixelateSmallDims w h).2 + 10 := by
  intro w h hw hh
  have hw1 : (pixelateSmallDims w h).1 = w / 10 := by
    simp only [pixelateSmallDims]
    exact max_eq_right (by omega)
  have hh1 : (pixelateSmallDims w h).2 = h / 10 := by
    simp only [pixelateSmallDims]
    exact max_eq_right (by omega)
  rw [hw1, hh1]
  refine ⟨rfl, rfl, by omega, by omega, by omega, by omega, by omega, by omega⟩

theorem pixelate_grid_tracks_region_size_witness :
    (pixelateSmallDims 200 123).1 = 200 / 10 ∧
    (pixelateSmallDims 200 123).2 = 123 / 10 ∧
    1 ≤ (pixelateSmallDims 200 123).1 ∧ 1 ≤ (pixelateSmallDims 200 123).2 ∧
    10 * (pixelateSmallDims 200 123).1 ≤ 200 ∧
    200 < 10 * (pixelateSmallDims 200 123).1 + 10 ∧
    10 * (pixelateSmallDims 200 123).2 ≤ 123 ∧
    123 < 10 * (pixelateSmallDims 200 123).2 + 10 :=
  pixelate_grid_tracks_region_size 200 123 (by decide) (by decide)

/-- C10: on every cycle the redaction renderer modifies pixels only inside
the union of the padded (15% per side) and frame-clamped track regions —
every pixel outside all of them keeps its original value — and a track whose
padded region clamps to zero area leaves the frame entirely unchanged rather
than raising an error. -/
theorem redaction_confined_to_padded_regions :
    (∀ (cv : CVLib) (style : BlurStyle) (w h : ℤ) (tracks : List TrackData)
       (img : Image) (x y : ℤ),
       (∀ t ∈ tracks, ¬ insideRegion (paddedRegion w h t.box).1
         (paddedRegion w h t.box).2.1 (paddedRegion w h t.box).2.2.1
         (paddedRegion w h t.box).2.2.2 x y) →
       renderBlurs cv style w h tracks img x y = img x y) ∧
    (∀ (cv : CVLib) (style : BlurStyle) (w h : ℤ) (img : Image) (b : Box4),
       (paddedRegion w h b).2.2.1 ≤ (paddedRegion w h b).1 ∨
       (paddedRegion w h b).2.2.2 ≤ (paddedRegion w h b).2.1 →
       applyBlurEffect cv style w h img (paddedRegion w h b).1
         (paddedRegion w h b).2.1 (paddedRegion w h b).2.2.1
         (paddedRegion w h b).2.2.2 = img) := by
  refine ⟨?_, ?_⟩
  · intro cv style w h tracks img x y hout
    exact renderBlurs_outside cv style w h tracks img x y hout
  · intro cv style w h img b hdeg
    apply applyBlurEffect_degenerate
    obtain ⟨h1, h2, h3, h4⟩ := paddedRegion_self_clamped w h b
    rcases hdeg with hd | hd
    · exact Or.inl (by rw [h1, h3]; exact hd)
    · exact Or.inr (by rw [h2, h4]; exact hd)

theorem redaction_confined_to_padded_regions_witness :
    renderBlurs ⟨fun _ _ _ => fun _ _ => (0, 0, 0),
        fun _ _ _ => fun _ _ => (0, 0, 0), fun _ _ => fun _ _ => (0, 0, 0)⟩
      BlurStyle.solid 100 100 [⟨⟨0, 0, 20, 20⟩, zeroVel, "L", 0⟩]
      (fun _ _ => (7, 7, 7)) 50 50 = (fun _ _ => ((7 : ℤ), (7 : ℤ), (7 : ℤ))) 50 50 ∧
    applyBlurEffect ⟨fun _ _ _ => fun _ _ => (0, 0, 0),
        fun _ _ _ => fun _ _ => (0, 0, 0), fun _ _ => fun _ _ => (0, 0, 0)⟩
      BlurStyle.solid 100 100 (fun _ _ => (7, 7, 7))
      (paddedRegion 100 100 ⟨5, 5, 5, 5⟩).1 (paddedRegion 100 100 ⟨5, 5, 5, 5⟩).2.1
      (paddedRegion 100 100 ⟨5, 5, 5, 5⟩).2.2.1
      (paddedRegion 100 100 ⟨5, 5, 5, 5⟩).2.2.2 =
      (fun _ _ => ((7 : ℤ), (7 : ℤ), (7 : ℤ))) := by
  have hpr : paddedRegion 100 100 (⟨0, 0, 20, 20⟩ : Box4) = (0, 0, 23, 23) := by
    norm_num [paddedRegion, pyInt, max_def, min_def]
  have hpr2 : paddedRegion 100 100 (⟨5, 5, 5, 5⟩ : Box4) = (5, 5, 5, 5) := by
    norm_num [paddedRegion, pyInt, max_def, min_def]
  constructor
  · apply redaction_confined_to_padded_regions.1
    intro t ht
    have ht' : t = ⟨⟨0, 0, 20, 20⟩, zeroVel, "L", 0⟩ := by simpa using ht
    subst ht'
    rw [show (⟨⟨0, 0, 20, 20⟩, zeroVel, "L", 0⟩ : TrackData).box =
      (⟨0, 0, 20, 20⟩ : Box4) from rfl, hpr]
    decide
  · apply redaction_confined_to_padded_regions.2
    rw [hpr2]
    decide

end SecureStudio
